import Mathlib

/-!
# Verification of the serde-querystring core parsers

Shallow embedding of the two query-string parsers of this repository:
the bracket-nested variant (`src/parsers/brackets.rs`) and the
duplicate-key variant (`src/parsers/duplicate.rs`).

Bytes are modelled as `Nat` (values below 256 in practice, though no
proof here depends on that bound), byte spans as `List Nat`. Rust slice
index loops are translated to structural recursion over the list; a
consumed-length counter replaces the cursor where the source returns one.
The `BTreeMap<Cow<[u8]>, Vec<Pair>>` store is modelled as an association
list kept sorted by byte-lexicographic key order (the `BTreeMap` order),
with per-group insertion order preserved by appending, exactly as
`values.push(pair)` does.

The percent-decoding module (`crate::decode`: `parse_char`,
`parse_bytes`) is not part of the visible source; it is modelled from the
specification (see the doc comments on `parse_char` and `parse_bytes`).
The borrowed-versus-owned distinction of `Reference`/`Cow` is a memory
optimisation with no observable effect on decoded byte content, so the
model returns the decoded bytes directly.
-/

/-- Modelled from the spec: the numeric value of one hexadecimal digit
byte, matched case-insensitively, `none` when the byte is not a hex
digit. Part of the missing `crate::decode` module. -/
def hexVal (b : Nat) : Option Nat :=
  if 48 ≤ b ∧ b ≤ 57 then some (b - 48)
  else if 97 ≤ b ∧ b ≤ 102 then some (b - 87)
  else if 65 ≤ b ∧ b ≤ 70 then some (b - 55)
  else none

/-- Modelled from the spec: `crate::decode::parse_char` decodes the two
bytes following a `%` as a case-insensitive hexadecimal pair, giving the
encoded byte, or `none` when either byte is not a hex digit. -/
def parse_char (b1 b2 : Nat) : Option Nat :=
  match hexVal b1, hexVal b2 with
  | some h, some l => some (16 * h + l)
  | _, _ => none

/-- Modelled from the spec: `crate::decode::parse_bytes` percent-decodes
a span. A `%` followed by two valid hex digits becomes the decoded byte;
a `%` whose following two bytes are not both valid hex digits (or which
is too close to the end of the span) is copied through literally and
scanning resumes at the next byte; every other byte passes through
unchanged. Never fails. -/
def parse_bytes : List Nat → List Nat
  | [] => []
  | 37 :: b1 :: b2 :: rest2 =>
    match parse_char b1 b2 with
    | some c => c :: parse_bytes rest2
    | none => 37 :: parse_bytes (b1 :: b2 :: rest2)
  | b :: rest => b :: parse_bytes rest

/-- Byte-lexicographic strict order on byte spans: the comparison used by
`BTreeMap<Cow<[u8]>, _>` to order its keys. -/
def bytesLt : List Nat → List Nat → Bool
  | [], [] => false
  | [], _ :: _ => true
  | _ :: _, [] => false
  | a :: as, b :: bs => if a < b then true else if b < a then false else bytesLt as bs

/-- The grouped store: `BTreeMap<Cow<[u8]>, Vec<Pair>>` as an association
list sorted by `bytesLt`, generic in the pair type so both parser
variants share it. `pairs.get_mut(key).push(pair)` appends to an existing
group; otherwise `pairs.insert(key, vec![pair])` creates a new group at
its sorted position. -/
def insertPair {α : Type} : List (List Nat × List α) → List Nat → α → List (List Nat × List α)
  | [], k, p => [(k, [p])]
  | (k0, ps) :: rest, k, p =>
    if k = k0 then (k0, ps ++ [p]) :: rest
    else if bytesLt k k0 then (k, [p]) :: (k0, ps) :: rest
    else (k0, ps) :: insertPair rest k p

/-- `BTreeMap::get`: the group of pairs stored under a (decoded) key. -/
def storeGet {α : Type} : List (List Nat × List α) → List Nat → Option (List α)
  | [], _ => none
  | (k0, ps) :: rest, k => if k = k0 then some ps else storeGet rest k

namespace Brackets

/-- `brackets.rs` `Key<'a>(&'a [u8], Option<&'a [u8]>)`: the key span
before the first open-bracket token, and the unconsumed remainder after
that token when one was found. -/
structure Key where
  key : List Nat
  remainder : Option (List Nat)
deriving DecidableEq

/-- The scan inside `Key::parse_remains`: length of the remainder span,
stopping at the first `&` (38) or `=` (61). -/
def parse_remains_len : List Nat → Nat
  | [] => 0
  | b :: rest => if b = 38 ∨ b = 61 then 0 else parse_remains_len rest + 1

/-- `brackets.rs` `Key::parse`: scans for a literal `[` (91) or a
percent-encoded `[` (`%5B`, requiring two more bytes after the `%` (37)),
terminating the key at `&` (38), `=` (61) or end of buffer. Returns the
key (with remainder when a bracket token was found) and the number of
bytes consumed. -/
def Key.parse : List Nat → Key × Nat
  | [] => (⟨[], none⟩, 0)
  | 37 :: b1 :: b2 :: rest2 =>
    if parse_char b1 b2 = some 91 then
      let n := parse_remains_len rest2
      (⟨[], some (rest2.take n)⟩, n + 3)
    else
      let r := Key.parse (b1 :: b2 :: rest2)
      (⟨37 :: r.1.key, r.1.remainder⟩, r.2 + 1)
  | b :: rest =>
    if b = 91 then
      let n := parse_remains_len rest
      (⟨[], some (rest.take n)⟩, n + 1)
    else if b = 38 ∨ b = 61 then (⟨[], none⟩, 0)
    else
      let r := Key.parse rest
      (⟨b :: r.1.key, r.1.remainder⟩, r.2 + 1)

/-- The post-loop checks of `Key::subkey`: after the closing-bracket
token, an immediately following open-bracket token (literal `[` or
`%5B`) starts the next remainder; otherwise the subkey is innermost. -/
def closeFollow : List Nat → Option (List Nat)
  | 91 :: rest2 => some rest2
  | 37 :: c1 :: c2 :: rest2 => if parse_char c1 c2 = some 91 then some rest2 else none
  | _ => none

/-- The scan of `Key::subkey` over a remainder: everything before the
first closing-bracket token (literal `]` (93) or `%5D`) is the subkey
name; the new remainder, when any, is determined by `closeFollow`. If no
closing token occurs the whole remainder is the name, with no further
remainder. -/
def subkeySplit : List Nat → List Nat × Option (List Nat)
  | [] => ([], none)
  | 37 :: b1 :: b2 :: tail =>
    if parse_char b1 b2 = some 93 then ([], closeFollow tail)
    else
      let r := subkeySplit (b1 :: b2 :: tail)
      (37 :: r.1, r.2)
  | b :: rest =>
    if b = 93 then ([], closeFollow rest)
    else
      let r := subkeySplit rest
      (b :: r.1, r.2)

/-- `brackets.rs` `Key::subkey`: `none` when the key has no remainder,
otherwise the next-level key split out of the remainder. -/
def Key.subkey (k : Key) : Option Key :=
  match k.remainder with
  | none => none
  | some remains =>
    let r := subkeySplit remains
    some ⟨r.1, r.2⟩

/-- The scan of `Key::has_subkey`: whether a remainder contains a
closing-bracket token (literal `]` or `%5D`) at all. -/
def hasCloseToken : List Nat → Bool
  | [] => false
  | 37 :: b1 :: b2 :: tail =>
    if parse_char b1 b2 = some 93 then true else hasCloseToken (b1 :: b2 :: tail)
  | b :: rest => if b = 93 then true else hasCloseToken rest

/-- `brackets.rs` `Key::has_subkey`. -/
def Key.has_subkey (k : Key) : Bool :=
  match k.remainder with
  | some remains => hasCloseToken remains
  | none => false

/-- The scan inside `Value::parse`: length of the value span, stopping at
the first `&` (38). -/
def valueScanLen : List Nat → Nat
  | [] => 0
  | b :: rest => if b = 38 then 0 else valueScanLen rest + 1

/-- `brackets.rs` `Value::parse`: no value when the buffer is exhausted
or starts with `&`; otherwise the first byte (the `=`) is skipped and the
value runs to the next `&` or end. Returns the value span and the index
reached (bytes consumed). -/
def Value.parse (slice : List Nat) : Option (List Nat) × Nat :=
  match slice with
  | [] => (none, 0)
  | b :: rest =>
    if b = 38 then (none, 0)
    else (some (rest.take (valueScanLen rest)), valueScanLen rest + 1)

/-- `brackets.rs` `Pair<'a>(Key<'a>, Option<Value<'a>>)`. -/
structure Pair where
  key : Key
  value : Option (List Nat)
deriving DecidableEq

/-- `brackets.rs` `Pair::parse`: one key, the following optional value,
and the consumed length `key_len + value_len + 1` (the `+ 1` steps over
the separating `&`, or past the end of the buffer). -/
def Pair.parse (slice : List Nat) : Pair × Nat :=
  let k := Key.parse slice
  let v := Value.parse (slice.drop k.2)
  (⟨k.1, v.1⟩, k.2 + v.2 + 1)

/-- The store of `BracketsQS<'a>`. -/
structure BracketsQS where
  pairs : List (List Nat × List Pair)
deriving DecidableEq

/-- The `while index < slice.len()` loop of `BracketsQS::parse`,
fuel-translated: each iteration assembles one pair, advances the cursor
by the pair's consumed length (always at least 1, see
`Brackets.Pair.parse_consumed_pos`), and files the pair under its
percent-decoded key. `fuel` bounds the number of iterations; any
`fuel ≥ slice.length` computes the loop to completion
(`parseGo_fuel_irrelevant`). -/
def parseGo : Nat → List Nat → List (List Nat × List Pair) → List (List Nat × List Pair)
  | 0, _, store => store
  | _ + 1, [], store => store
  | fuel + 1, b :: rest, store =>
    let r := Pair.parse (b :: rest)
    parseGo fuel ((b :: rest).drop r.2) (insertPair store (parse_bytes r.1.key.key) r.1)

/-- `brackets.rs` `BracketsQS::parse`. -/
def BracketsQS.parse (slice : List Nat) : BracketsQS :=
  ⟨parseGo slice.length slice []⟩

/-- The loop of `BracketsQS::from_pairs`: `filter_map` each pair through
`Key::subkey`, keep its value, and file it under the decoded subkey
name. -/
def from_pairs_go : List Pair → List (List Nat × List Pair) → List (List Nat × List Pair)
  | [], store => store
  | p :: rest, store =>
    match p.key.subkey with
    | none => from_pairs_go rest store
    | some k => from_pairs_go rest (insertPair store (parse_bytes k.key) ⟨k, p.value⟩)

/-- `brackets.rs` `BracketsQS::from_pairs`. -/
def BracketsQS.from_pairs (ps : List Pair) : BracketsQS :=
  ⟨from_pairs_go ps []⟩

/-- `brackets.rs` `BracketsQS::keys`. -/
def BracketsQS.keys (qs : BracketsQS) : List (List Nat) :=
  qs.pairs.map Prod.fst

/-- `brackets.rs` `BracketsQS::sub_values`. -/
def BracketsQS.sub_values (qs : BracketsQS) (key : List Nat) : Option BracketsQS :=
  (storeGet qs.pairs key).map BracketsQS.from_pairs

/-- `brackets.rs` `BracketsQS::values`: the group's pairs with every
`has_subkey` pair filtered out, each remaining pair's value
percent-decoded (`none` kept for valueless pairs), in group order;
`none` when the key is absent. -/
def BracketsQS.values (qs : BracketsQS) (key : List Nat) : Option (List (Option (List Nat))) :=
  (storeGet qs.pairs key).map fun ps =>
    (ps.filter fun p => !p.key.has_subkey).map fun p => p.value.map parse_bytes

/-- `brackets.rs` `BracketsQS::value`: the last pair of the group that
survives the `has_subkey` filter, its value percent-decoded; `none` when
the key is absent or every pair is filtered away. -/
def BracketsQS.value (qs : BracketsQS) (key : List Nat) : Option (Option (List Nat)) :=
  (storeGet qs.pairs key).bind fun ps =>
    ((ps.filter fun p => !p.key.has_subkey).getLast?).map fun p => p.value.map parse_bytes

end Brackets

namespace Duplicate

/-- The scan of `duplicate.rs` `Key::parse`: length of the key span,
stopping at the first `&` (38) or `=` (61). -/
def keyScanLen : List Nat → Nat
  | [] => 0
  | b :: rest => if b = 38 ∨ b = 61 then 0 else keyScanLen rest + 1

/-- `duplicate.rs` `Key<'a> { slice: &'a [u8] }`. -/
structure Key where
  slice : List Nat
deriving DecidableEq

/-- `duplicate.rs` `Key::parse`: the whole span up to the first `&` or
`=` (or end of buffer) is the key. -/
def Key.parse (s : List Nat) : Key :=
  ⟨s.take (keyScanLen s)⟩

/-- `duplicate.rs` `Key::len`. -/
def Key.len (k : Key) : Nat :=
  k.slice.length

/-- The scan of `duplicate.rs` `Value::parse`: length of the value span,
stopping at the first `&` (38). -/
def valueScanLen : List Nat → Nat
  | [] => 0
  | b :: rest => if b = 38 then 0 else valueScanLen rest + 1

/-- `duplicate.rs` `Value::parse`: no value when the buffer is exhausted
or starts with `&`; otherwise the first byte (the `=`) is skipped and the
value runs to the next `&` or end (possibly empty). -/
def Value.parse (s : List Nat) : Option (List Nat) :=
  match s with
  | [] => none
  | b :: rest => if b = 38 then none else some (rest.take (valueScanLen rest))

/-- `duplicate.rs` `Pair<'a>(Key<'a>, Option<Value<'a>>)`. -/
structure Pair where
  key : Key
  value : Option (List Nat)
deriving DecidableEq

/-- `duplicate.rs` `Pair::parse`. -/
def Pair.parse (s : List Nat) : Pair :=
  let k := Key.parse s
  ⟨k, Value.parse (s.drop k.len)⟩

/-- `duplicate.rs` `Pair::len`: the bytes this pair consumes, stepping
over the `=` and the separating `&` when a value is present, or only the
`&` when not. -/
def Pair.len (p : Pair) : Nat :=
  match p.value with
  | some v => p.key.len + v.length + 2
  | none => p.key.len + 1

/-- The store of `DuplicateQueryString<'a>`. -/
structure DuplicateQueryString where
  pairs : List (List Nat × List Pair)
deriving DecidableEq

/-- The `while index < slice.len()` loop of
`DuplicateQueryString::parse`, fuel-translated exactly like
`Brackets.parseGo`. -/
def parseGo : Nat → List Nat → List (List Nat × List Pair) → List (List Nat × List Pair)
  | 0, _, store => store
  | _ + 1, [], store => store
  | fuel + 1, b :: rest, store =>
    let p := Pair.parse (b :: rest)
    parseGo fuel ((b :: rest).drop p.len) (insertPair store (parse_bytes p.key.slice) p)

/-- `duplicate.rs` `DuplicateQueryString::parse`. -/
def DuplicateQueryString.parse (s : List Nat) : DuplicateQueryString :=
  ⟨parseGo s.length s []⟩

/-- `duplicate.rs` `DuplicateQueryString::keys`. -/
def DuplicateQueryString.keys (qs : DuplicateQueryString) : List (List Nat) :=
  qs.pairs.map Prod.fst

/-- `duplicate.rs` `DuplicateQueryString::values`: every pair's value
percent-decoded (`none` kept for valueless pairs), in group order;
`none` when the key is absent. -/
def DuplicateQueryString.values (qs : DuplicateQueryString) (key : List Nat) :
    Option (List (Option (List Nat))) :=
  (storeGet qs.pairs key).map fun ps => ps.map fun p => p.value.map parse_bytes

/-- `duplicate.rs` `DuplicateQueryString::value`: the last pair of the
group, its value percent-decoded; `none` when the key is absent. -/
def DuplicateQueryString.value (qs : DuplicateQueryString) (key : List Nat) :
    Option (Option (List Nat)) :=
  (storeGet qs.pairs key).bind fun ps => ps.getLast?.map fun p => p.value.map parse_bytes

/-- `duplicate.rs` `DuplicateQueryString::raw_values`: like `values` but
without percent-decoding. -/
def DuplicateQueryString.raw_values (qs : DuplicateQueryString) (key : List Nat) :
    Option (List (Option (List Nat))) :=
  (storeGet qs.pairs key).map fun ps => ps.map fun p => p.value

/-- `duplicate.rs` `DuplicateQueryString::raw_value`: like `value` but
without percent-decoding. -/
def DuplicateQueryString.raw_value (qs : DuplicateQueryString) (key : List Nat) :
    Option (Option (List Nat)) :=
  (storeGet qs.pairs key).bind fun ps => ps.getLast?.map fun p => p.value

end Duplicate

/-! ## Concrete inputs used by the claims -/

/-- The bytes of `foo[bar]xyz=baz&foo[bar][xyz=buzz&foo[foobar]xyz]=qux&foo[xyz=bar`. -/
def inpMalformed : List Nat :=
  [102, 111, 111, 91, 98, 97, 114, 93, 120, 121, 122, 61, 98, 97, 122, 38,
   102, 111, 111, 91, 98, 97, 114, 93, 91, 120, 121, 122, 61, 98, 117, 122, 122, 38,
   102, 111, 111, 91, 102, 111, 111, 98, 97, 114, 93, 120, 121, 122, 93, 61, 113, 117, 120, 38,
   102, 111, 111, 91, 120, 121, 122, 61, 98, 97, 114]

/-- The bytes of `v%61lu%65=1&valu%65=2&value=3`. -/
def inpEscapedKeys : List Nat :=
  [118, 37, 54, 49, 108, 117, 37, 54, 53, 61, 49, 38,
   118, 97, 108, 117, 37, 54, 53, 61, 50, 38,
   118, 97, 108, 117, 101, 61, 51]

/-- The bytes of `foo=bar&foo=baz&foo=foobar&foo&foo=`. -/
def inpDupMulti : List Nat :=
  [102, 111, 111, 61, 98, 97, 114, 38, 102, 111, 111, 61, 98, 97, 122, 38,
   102, 111, 111, 61, 102, 111, 111, 98, 97, 114, 38, 102, 111, 111, 38, 102, 111, 111, 61]

/-- The bytes of `foo[xyz=bar`: a bracket is opened but never closed. -/
def inpNoClose : List Nat :=
  [102, 111, 111, 91, 120, 121, 122, 61, 98, 97, 114]

/-- The bytes of `a[b]=1`: the only pair under `a` carries a subkey. -/
def inpSubOnly : List Nat :=
  [97, 91, 98, 93, 61, 49]

/-- The bytes of `a[b]=1&a=2&a[c]=3`: a leaf pair between two subkey-bearing
pairs under the same key. -/
def inpLeafMix : List Nat :=
  [97, 91, 98, 93, 61, 49, 38, 97, 61, 50, 38, 97, 91, 99, 93, 61, 51]

/-! ## Store lemmas -/

theorem storeGet_insertPair_cases {α : Type} (k : List Nat) (p : α) :
    ∀ (st : List (List Nat × List α)) (k' : List Nat) (ps' : List α),
      storeGet (insertPair st k p) k' = some ps' →
      storeGet st k' = some ps' ∨ (k' = k ∧ ps' = [p]) ∨
        (k' = k ∧ ∃ ps, storeGet st k' = some ps ∧ ps' = ps ++ [p]) := by
  intro st
  induction st with
  | nil =>
    intro k' ps' h
    simp only [insertPair, storeGet] at h
    by_cases hk : k' = k
    · rw [if_pos hk] at h
      exact Or.inr (Or.inl ⟨hk, (Option.some_inj.mp h).symm⟩)
    · rw [if_neg hk] at h
      exact absurd h (by simp)
  | cons hd rest ih =>
    obtain ⟨k0, ps⟩ := hd
    intro k' ps' h
    simp only [insertPair] at h
    by_cases hk : k = k0
    · rw [if_pos hk] at h
      subst hk
      simp only [storeGet] at h ⊢
      by_cases hk' : k' = k
      · rw [if_pos hk'] at h
        rw [if_pos hk']
        exact Or.inr (Or.inr ⟨hk', ps, rfl, (Option.some_inj.mp h).symm⟩)
      · rw [if_neg hk'] at h
        rw [if_neg hk']
        exact Or.inl h
    · rw [if_neg hk] at h
      by_cases hlt : bytesLt k k0
      · rw [if_pos hlt] at h
        simp only [storeGet] at h ⊢
        by_cases hk' : k' = k
        · rw [if_pos hk'] at h
          exact Or.inr (Or.inl ⟨hk', (Option.some_inj.mp h).symm⟩)
        · rw [if_neg hk'] at h
          exact Or.inl h
      · rw [if_neg hlt] at h
        simp only [storeGet] at h ⊢
        by_cases hk0 : k' = k0
        · rw [if_pos hk0] at h
          rw [if_pos hk0]
          exact Or.inl h
        · rw [if_neg hk0] at h
          rw [if_neg hk0]
          exact ih k' ps' h

/-! ## Parse-loop lemmas, brackets variant -/

namespace Brackets

theorem Pair.parse_consumed_pos (s : List Nat) : 1 ≤ (Pair.parse s).2 := by
  simp only [Pair.parse]
  omega

theorem parseGo_nil (f : Nat) (st : List (List Nat × List Pair)) : parseGo f [] st = st := by
  cases f <;> rfl

theorem parseGo_fuel : ∀ (f1 f2 : Nat) (s : List Nat) (st : List (List Nat × List Pair)),
    s.length ≤ f1 → s.length ≤ f2 → parseGo f1 s st = parseGo f2 s st := by
  intro f1
  induction f1 with
  | zero =>
    intro f2 s st h1 _
    rw [List.length_eq_zero.mp (Nat.le_zero.mp h1)]
    rw [parseGo_nil, parseGo_nil]
  | succ g1 ih =>
    intro f2 s st h1 h2
    match s with
    | [] => rw [parseGo_nil, parseGo_nil]
    | b :: rest =>
      match f2 with
      | 0 => exact absurd h2 (by simp)
      | g2 + 1 =>
        show parseGo g1 _ _ = parseGo g2 _ _
        have hc := Pair.parse_consumed_pos (b :: rest)
        have hd : ((b :: rest).drop (Pair.parse (b :: rest)).2).length ≤ rest.length := by
          rw [List.length_drop, List.length_cons]
          omega
        simp only [List.length_cons] at h1 h2
        apply ih
        · omega
        · omega

theorem parseGo_inv (P : List Nat → Pair → Prop)
    (hP : ∀ s, P (parse_bytes (Pair.parse s).1.key.key) (Pair.parse s).1) :
    ∀ (f : Nat) (s : List Nat) (st : List (List Nat × List Pair)),
      (∀ k ps, storeGet st k = some ps → ∀ p ∈ ps, P k p) →
      ∀ k ps, storeGet (parseGo f s st) k = some ps → ∀ p ∈ ps, P k p := by
  intro f
  induction f with
  | zero => intro s st h; exact h
  | succ g ih =>
    intro s st h
    match s with
    | [] => exact h
    | b :: rest =>
      show ∀ k ps, storeGet (parseGo g _ _) k = some ps → ∀ p ∈ ps, P k p
      apply ih
      intro k ps hget p hp
      rcases storeGet_insertPair_cases _ _ _ _ _ hget with h1 | ⟨hk, hps⟩ | ⟨hk, ps0, hps0, hps⟩
      · exact h k ps h1 p hp
      · subst hk; subst hps
        rcases List.mem_singleton.mp hp with rfl
        exact hP (b :: rest)
      · subst hk; subst hps
        rcases List.mem_append.mp hp with h2 | h2
        · exact h _ ps0 hps0 p h2
        · rcases List.mem_singleton.mp h2 with rfl
          exact hP (b :: rest)

theorem parseGo_groups_nonempty :
    ∀ (f : Nat) (s : List Nat) (st : List (List Nat × List Pair)),
      (∀ k ps, storeGet st k = some ps → ps ≠ []) →
      ∀ k ps, storeGet (parseGo f s st) k = some ps → ps ≠ [] := by
  intro f
  induction f with
  | zero => intro s st h; exact h
  | succ g ih =>
    intro s st h
    match s with
    | [] => exact h
    | b :: rest =>
      show ∀ k ps, storeGet (parseGo g _ _) k = some ps → ps ≠ []
      apply ih
      intro k ps hget
      rcases storeGet_insertPair_cases _ _ _ _ _ hget with h1 | ⟨_, hps⟩ | ⟨_, ps0, _, hps⟩
      · exact h k ps h1
      · subst hps; simp
      · subst hps; simp

end Brackets

/-! ## Parse-loop lemmas, duplicate variant -/

namespace Duplicate

theorem Pair.parse_len_pos (s : List Nat) : 1 ≤ (Pair.parse s).len := by
  rcases h : Value.parse (s.drop (Key.parse s).len) with _ | v <;>
    simp [Pair.parse, Pair.len, h]

theorem parseGoDup_nil (f : Nat) (st : List (List Nat × List Pair)) : parseGo f [] st = st := by
  cases f <;> rfl

theorem parseGoDup_fuel : ∀ (f1 f2 : Nat) (s : List Nat) (st : List (List Nat × List Pair)),
    s.length ≤ f1 → s.length ≤ f2 → parseGo f1 s st = parseGo f2 s st := by
  intro f1
  induction f1 with
  | zero =>
    intro f2 s st h1 _
    rw [List.length_eq_zero.mp (Nat.le_zero.mp h1)]
    rw [parseGoDup_nil, parseGoDup_nil]
  | succ g1 ih =>
    intro f2 s st h1 h2
    match s with
    | [] => rw [parseGoDup_nil, parseGoDup_nil]
    | b :: rest =>
      match f2 with
      | 0 => exact absurd h2 (by simp)
      | g2 + 1 =>
        show parseGo g1 _ _ = parseGo g2 _ _
        have hc := Pair.parse_len_pos (b :: rest)
        have hd : ((b :: rest).drop (Pair.parse (b :: rest)).len).length ≤ rest.length := by
          rw [List.length_drop, List.length_cons]
          omega
        simp only [List.length_cons] at h1 h2
        apply ih
        · omega
        · omega

theorem parseGoDup_inv (P : List Nat → Pair → Prop)
    (hP : ∀ s, P (parse_bytes (Pair.parse s).key.slice) (Pair.parse s)) :
    ∀ (f : Nat) (s : List Nat) (st : List (List Nat × List Pair)),
      (∀ k ps, storeGet st k = some ps → ∀ p ∈ ps, P k p) →
      ∀ k ps, storeGet (parseGo f s st) k = some ps → ∀ p ∈ ps, P k p := by
  intro f
  induction f with
  | zero => intro s st h; exact h
  | succ g ih =>
    intro s st h
    match s with
    | [] => exact h
    | b :: rest =>
      show ∀ k ps, storeGet (parseGo g _ _) k = some ps → ∀ p ∈ ps, P k p
      apply ih
      intro k ps hget p hp
      rcases storeGet_insertPair_cases _ _ _ _ _ hget with h1 | ⟨hk, hps⟩ | ⟨hk, ps0, hps0, hps⟩
      · exact h k ps h1 p hp
      · subst hk; subst hps
        rcases List.mem_singleton.mp hp with rfl
        exact hP (b :: rest)
      · subst hk; subst hps
        rcases List.mem_append.mp hp with h2 | h2
        · exact h _ ps0 hps0 p h2
        · rcases List.mem_singleton.mp h2 with rfl
          exact hP (b :: rest)

theorem parseGoDup_groups_nonempty :
    ∀ (f : Nat) (s : List Nat) (st : List (List Nat × List Pair)),
      (∀ k ps, storeGet st k = some ps → ps ≠ []) →
      ∀ k ps, storeGet (parseGo f s st) k = some ps → ps ≠ [] := by
  intro f
  induction f with
  | zero => intro s st h; exact h
  | succ g ih =>
    intro s st h
    match s with
    | [] => exact h
    | b :: rest =>
      show ∀ k ps, storeGet (parseGo g _ _) k = some ps → ps ≠ []
      apply ih
      intro k ps hget
      rcases storeGet_insertPair_cases _ _ _ _ _ hget with h1 | ⟨_, hps⟩ | ⟨_, ps0, _, hps⟩
      · exact h k ps h1
      · subst hps; simp
      · subst hps; simp

end Duplicate

/-! ## Scan lemmas -/

theorem parse_bytes_of_no_escape : ∀ (s : List Nat), (∀ b ∈ s, b ≠ 37) → parse_bytes s = s := by
  intro s
  induction s using parse_bytes.induct with
  | case1 => intro _; rfl
  | case2 b1 b2 rest2 c hc ih =>
    intro h
    exact absurd rfl (h 37 (by simp))
  | case3 b1 b2 rest2 hc ih =>
    intro h
    exact absurd rfl (h 37 (by simp))
  | case4 b rest hshape ih =>
    intro h
    rw [parse_bytes.eq_3 b rest hshape]
    rw [ih fun x hx => h x (List.mem_cons_of_mem b hx)]

theorem subkeySplit_of_no_close : ∀ (remains : List Nat),
    Brackets.hasCloseToken remains = false → Brackets.subkeySplit remains = (remains, none) := by
  intro remains
  induction remains using Brackets.subkeySplit.induct with
  | case1 => intro _; rfl
  | case2 b1 b2 tail hc =>
    intro h
    rw [Brackets.hasCloseToken.eq_2, if_pos hc] at h
    exact absurd h (by simp)
  | case3 b1 b2 tail hc ih =>
    intro h
    rw [Brackets.hasCloseToken.eq_2, if_neg hc] at h
    rw [Brackets.subkeySplit.eq_2, if_neg hc, ih h]
  | case4 rest hshape =>
    intro h
    rw [Brackets.hasCloseToken.eq_3 _ _ hshape, if_pos rfl] at h
    exact absurd h (by simp)
  | case5 b rest hshape h93 ih =>
    intro h
    rw [Brackets.hasCloseToken.eq_3 _ _ hshape, if_neg h93] at h
    rw [Brackets.subkeySplit.eq_3 _ _ hshape, if_neg h93, ih h]

theorem brackets_key_parse_plain : ∀ (s : List Nat),
    (∀ b ∈ s, ¬(b = 38 ∨ b = 61 ∨ b = 91 ∨ b = 37)) →
    Brackets.Key.parse s = (⟨s, none⟩, s.length) := by
  intro s
  induction s using Brackets.Key.parse.induct with
  | case1 => intro _; rfl
  | case2 b1 b2 rest2 hc =>
    intro h
    exact absurd (h 37 (by simp)) (by simp)
  | case3 b1 b2 rest2 hc ih =>
    intro h
    exact absurd (h 37 (by simp)) (by simp)
  | case4 rest hshape =>
    intro h
    exact absurd (h 91 (by simp)) (by simp)
  | case5 b rest hshape h91 hsep =>
    intro h
    exact ((h b (by simp)) (by rcases hsep with h1 | h1 <;> simp [h1])).elim
  | case6 b rest hshape h91 hsep ih =>
    intro h
    rw [Brackets.Key.parse.eq_3 b rest hshape, if_neg h91, if_neg hsep]
    rw [ih fun x hx => h x (List.mem_cons_of_mem b hx)]
    simp [List.length_cons]

theorem dup_keyScanLen_plain : ∀ (s : List Nat),
    (∀ b ∈ s, ¬(b = 38 ∨ b = 61)) → Duplicate.keyScanLen s = s.length := by
  intro s
  induction s with
  | nil => intro _; rfl
  | cons b rest ih =>
    intro h
    rw [Duplicate.keyScanLen, if_neg (h b (by simp))]
    rw [ih fun x hx => h x (List.mem_cons_of_mem b hx)]
    simp

/-! ## Runs of `&` separators -/

theorem brackets_amp_step (rest : List Nat) :
    Brackets.Pair.parse (38 :: rest) = (⟨⟨[], none⟩, none⟩, 1) := by
  have hk : Brackets.Key.parse (38 :: rest) = (⟨[], none⟩, 0) := by
    rw [Brackets.Key.parse.eq_3 38 rest (by omega)]
    norm_num
  simp [Brackets.Pair.parse, hk, Brackets.Value.parse]

theorem brackets_amp_go : ∀ (n : Nat) (ps : List Brackets.Pair),
    Brackets.parseGo n (List.replicate n 38) [([], ps)]
      = [([], ps ++ List.replicate n (⟨⟨[], none⟩, none⟩ : Brackets.Pair))] := by
  intro n
  induction n with
  | zero => intro ps; simp [Brackets.parseGo]
  | succ m ih =>
    intro ps
    rw [List.replicate_succ]
    rw [Brackets.parseGo, brackets_amp_step]
    have hins : insertPair [([], ps)] (parse_bytes (⟨[], none⟩ : Brackets.Key).key)
        (⟨⟨[], none⟩, none⟩ : Brackets.Pair) = [([], ps ++ [⟨⟨[], none⟩, none⟩])] := by
      simp [insertPair, parse_bytes]
    simp only [List.drop_succ_cons, List.drop_zero, hins]
    rw [ih]
    simp [List.replicate_succ]

theorem dup_amp_step (rest : List Nat) :
    Duplicate.Pair.parse (38 :: rest) = ⟨⟨[]⟩, none⟩ := by
  have hk : Duplicate.Key.parse (38 :: rest) = ⟨[]⟩ := by
    simp [Duplicate.Key.parse, Duplicate.keyScanLen]
  simp [Duplicate.Pair.parse, hk, Duplicate.Value.parse, Duplicate.Key.len]

theorem dup_amp_go : ∀ (n : Nat) (ps : List Duplicate.Pair),
    Duplicate.parseGo n (List.replicate n 38) [([], ps)]
      = [([], ps ++ List.replicate n (⟨⟨[]⟩, none⟩ : Duplicate.Pair))] := by
  intro n
  induction n with
  | zero => intro ps; simp [Duplicate.parseGo]
  | succ m ih =>
    intro ps
    rw [List.replicate_succ]
    rw [Duplicate.parseGo, dup_amp_step]
    have hins : insertPair [([], ps)] (parse_bytes (⟨[]⟩ : Duplicate.Key).slice)
        (⟨⟨[]⟩, none⟩ : Duplicate.Pair) = [([], ps ++ [⟨⟨[]⟩, none⟩])] := by
      simp [insertPair, parse_bytes]
    have hlen : (⟨⟨[]⟩, none⟩ : Duplicate.Pair).len = 1 := rfl
    simp only [hlen, List.drop_succ_cons, List.drop_zero, hins]
    rw [ih]
    simp [List.replicate_succ]

/-! ## Claims -/

/-- C1, counterexample: parsing `foo[xyz=bar` stores under `foo` a single
pair whose key carries the non-empty unconsumed remainder `xyz`, yet
`values(foo)` still returns that pair's decoded value — so a pair with an
unconsumed bracket remainder is not invisible to leaf-level queries, as
the claim states it is. -/
theorem c1_counterexample :
    (Brackets.BracketsQS.parse inpNoClose).pairs
      = [([102, 111, 111], [⟨⟨[102, 111, 111], some [120, 121, 122]⟩, some [98, 97, 114]⟩])]
    ∧ Brackets.BracketsQS.values (Brackets.BracketsQS.parse inpNoClose) [102, 111, 111]
      = some [some [98, 97, 114]] := by
  constructor <;> decide

/-- C1, amended: the leaf filter of `values`/`value` is `has_subkey`
(presence of a closing-bracket token in the remainder), not presence of a
remainder: removing a `has_subkey` pair from anywhere in a key's group
changes neither `values(key)` nor `value(key)`. -/
theorem c1_amended : ∀ (qs qs2 : Brackets.BracketsQS) (k : List Nat)
    (ps1 : List Brackets.Pair) (p : Brackets.Pair) (ps2 : List Brackets.Pair),
    p.key.has_subkey = true →
    storeGet qs.pairs k = some (ps1 ++ p :: ps2) →
    storeGet qs2.pairs k = some (ps1 ++ ps2) →
    qs.values k = qs2.values k ∧ qs.value k = qs2.value k := by
  intro qs qs2 k ps1 p ps2 hp h1 h2
  have hfilter : (ps1 ++ p :: ps2).filter (fun q => !q.key.has_subkey)
      = (ps1 ++ ps2).filter (fun q => !q.key.has_subkey) := by
    simp [List.filter_append, List.filter_cons, hp]
  constructor
  · unfold Brackets.BracketsQS.values
    rw [h1, h2]
    show some (((ps1 ++ p :: ps2).filter fun q => !q.key.has_subkey).map
        fun q => q.value.map parse_bytes)
      = some (((ps1 ++ ps2).filter fun q => !q.key.has_subkey).map
        fun q => q.value.map parse_bytes)
    rw [hfilter]
  · unfold Brackets.BracketsQS.value
    rw [h1, h2]
    show (((ps1 ++ p :: ps2).filter fun q => !q.key.has_subkey).getLast?).map
        (fun q => q.value.map parse_bytes)
      = (((ps1 ++ ps2).filter fun q => !q.key.has_subkey).getLast?).map
        (fun q => q.value.map parse_bytes)
    rw [hfilter]

/-- C1, witness for the amended theorem at a concrete store. -/
theorem c1_witness :
    (⟨⟨[], some [93]⟩, none⟩ : Brackets.Pair).key.has_subkey = true
    ∧ Brackets.BracketsQS.values ⟨[([], [⟨⟨[], some [93]⟩, none⟩])]⟩ []
      = Brackets.BracketsQS.values ⟨[([], [])]⟩ [] :=
  ⟨by decide,
    (c1_amended ⟨[([], [⟨⟨[], some [93]⟩, none⟩])]⟩ ⟨[([], [])]⟩ [] [] ⟨⟨[], some [93]⟩, none⟩ []
      (by decide) (by decide) (by decide)).1⟩

/-- C2, counterexample: on input `a[b]=1` the key `a` is present in the
store, yet `values(a)` is `Some` of the empty list, because the only pair
under `a` bears a subkey and is filtered away — contradicting the claim
that a present key always yields a non-empty list. -/
theorem c2_counterexample :
    storeGet (Brackets.BracketsQS.parse inpSubOnly).pairs [97]
      = some [⟨⟨[97], some [98, 93]⟩, some [49]⟩]
    ∧ Brackets.BracketsQS.values (Brackets.BracketsQS.parse inpSubOnly) [97] = some [] := by
  constructor <;> decide

/-- C2, amended: `values(key)` is `None` exactly when the key is absent
from the store; every group of a parse-built store holds at least one
pair, but `values` of a present key can still be `Some` of the empty list
when every pair bears a subkey. -/
theorem c2_amended : ∀ (s k : List Nat),
    (Brackets.BracketsQS.values (Brackets.BracketsQS.parse s) k = none
      ↔ storeGet (Brackets.BracketsQS.parse s).pairs k = none)
    ∧ (∀ ps, storeGet (Brackets.BracketsQS.parse s).pairs k = some ps → ps ≠ []) := by
  intro s k
  constructor
  · simp [Brackets.BracketsQS.values, Option.map_eq_none']
  · intro ps h
    exact Brackets.parseGo_groups_nonempty s.length s []
      (by intro k2 ps2 h2; simp [storeGet] at h2) k ps h

/-- C2, witness for the amended theorem at input `a=1` and key `a`. -/
theorem c2_witness :
    (Brackets.BracketsQS.values (Brackets.BracketsQS.parse [97, 61, 49]) [97] = none
      ↔ storeGet (Brackets.BracketsQS.parse [97, 61, 49]).pairs [97] = none)
    ∧ ([⟨⟨[97], none⟩, some [49]⟩] : List Brackets.Pair) ≠ [] :=
  ⟨(c2_amended [97, 61, 49] [97]).1,
    (c2_amended [97, 61, 49] [97]).2 [⟨⟨[97], none⟩, some [49]⟩] (by decide)⟩

/-- C3: a remainder with no closing-bracket token becomes, in full, the
subkey name with no further remainder; and the malformed input
`foo[bar]xyz=baz&foo[bar][xyz=buzz&foo[foobar]xyz]=qux&foo[xyz=bar`
yields the same nested values as well-formed nesting. -/
theorem c3_no_close_subkey :
    (∀ (key remains : List Nat), Brackets.hasCloseToken remains = false →
      Brackets.Key.subkey ⟨key, some remains⟩ = some ⟨remains, none⟩)
    ∧ ((Brackets.BracketsQS.sub_values (Brackets.BracketsQS.parse inpMalformed) [102, 111, 111]).map
        (fun q => q.values [98, 97, 114])
        = some (some [some [98, 97, 122], some [98, 117, 122, 122]]))
    ∧ ((Brackets.BracketsQS.sub_values (Brackets.BracketsQS.parse inpMalformed) [102, 111, 111]).map
        (fun q => q.values [102, 111, 111, 98, 97, 114])
        = some (some [some [113, 117, 120]])) := by
  refine ⟨?_, by decide, by decide⟩
  intro key remains h
  simp [Brackets.Key.subkey, subkeySplit_of_no_close remains h]

/-- C3, witness for the no-closing-token clause at remainder `xyz`. -/
theorem c3_witness :
    Brackets.hasCloseToken [120, 121, 122] = false
    ∧ Brackets.Key.subkey ⟨[102], some [120, 121, 122]⟩ = some ⟨[120, 121, 122], none⟩ :=
  ⟨by decide, c3_no_close_subkey.1 [102] [120, 121, 122] (by decide)⟩

/-- C4: `value(key)` is the last entry of `values(key)` — last-write-wins
restricted to the pairs surviving the subkey filter, `None` when the key
is absent or everything is filtered away; concretely, on
`a[b]=1&a=2&a[c]=3` the leaf pair `a=2` wins even though a subkey-bearing
pair comes later. -/
theorem c4_value_last_leaf :
    (∀ (qs : Brackets.BracketsQS) (k : List Nat),
      qs.value k = (qs.values k).bind List.getLast?)
    ∧ Brackets.BracketsQS.value (Brackets.BracketsQS.parse inpLeafMix) [97] = some (some [50]) := by
  refine ⟨?_, by decide⟩
  intro qs k
  rcases h : storeGet qs.pairs k with _ | ps
  · simp [Brackets.BracketsQS.value, Brackets.BracketsQS.values, h]
  · unfold Brackets.BracketsQS.value Brackets.BracketsQS.values
    rw [h]
    show ((ps.filter fun p => !p.key.has_subkey).getLast?).map (fun p => p.value.map parse_bytes)
      = ((ps.filter fun p => !p.key.has_subkey).map fun p => p.value.map parse_bytes).getLast?
    exact (List.getLast?_map _ _).symm

/-- C5: in either variant, every pair is stored under the
percent-decoding of its raw key span — so raw key spans that decode to
equal byte sequences land in the same group — and on
`v%61lu%65=1&valu%65=2&value=3` the three differently-escaped spellings
of `value` group together in first-encounter order. -/
theorem c5_decoded_key_grouping :
    (∀ (s k : List Nat) (ps : List Brackets.Pair),
      storeGet (Brackets.BracketsQS.parse s).pairs k = some ps →
      ∀ p ∈ ps, parse_bytes p.key.key = k)
    ∧ (∀ (s k : List Nat) (ps : List Duplicate.Pair),
      storeGet (Duplicate.DuplicateQueryString.parse s).pairs k = some ps →
      ∀ p ∈ ps, parse_bytes p.key.slice = k)
    ∧ Brackets.BracketsQS.values (Brackets.BracketsQS.parse inpEscapedKeys)
        [118, 97, 108, 117, 101] = some [some [49], some [50], some [51]]
    ∧ Duplicate.DuplicateQueryString.values (Duplicate.DuplicateQueryString.parse inpEscapedKeys)
        [118, 97, 108, 117, 101] = some [some [49], some [50], some [51]] := by
  refine ⟨?_, ?_, by decide, by decide⟩
  · intro s k ps h p hp
    exact Brackets.parseGo_inv (fun k2 p2 => parse_bytes p2.key.key = k2) (fun s2 => rfl)
      s.length s [] (by intro k2 ps2 h2; simp [storeGet] at h2) k ps h p hp
  · intro s k ps h p hp
    exact Duplicate.parseGoDup_inv (fun k2 p2 => parse_bytes p2.key.slice = k2) (fun s2 => rfl)
      s.length s [] (by intro k2 ps2 h2; simp [storeGet] at h2) k ps h p hp

/-- C5, witness: the group of `value` on the escaped input, and the first
pair's raw key span decoding to the group key. -/
theorem c5_witness :
    storeGet (Brackets.BracketsQS.parse inpEscapedKeys).pairs [118, 97, 108, 117, 101]
      = some [⟨⟨[118, 37, 54, 49, 108, 117, 37, 54, 53], none⟩, some [49]⟩,
              ⟨⟨[118, 97, 108, 117, 37, 54, 53], none⟩, some [50]⟩,
              ⟨⟨[118, 97, 108, 117, 101], none⟩, some [51]⟩]
    ∧ parse_bytes [118, 37, 54, 49, 108, 117, 37, 54, 53] = [118, 97, 108, 117, 101] :=
  ⟨by decide,
    c5_decoded_key_grouping.1 inpEscapedKeys [118, 97, 108, 117, 101]
      [⟨⟨[118, 37, 54, 49, 108, 117, 37, 54, 53], none⟩, some [49]⟩,
       ⟨⟨[118, 97, 108, 117, 37, 54, 53], none⟩, some [50]⟩,
       ⟨⟨[118, 97, 108, 117, 101], none⟩, some [51]⟩] (by decide)
      ⟨⟨[118, 37, 54, 49, 108, 117, 37, 54, 53], none⟩, some [49]⟩ (by decide)⟩

/-- C6: the parse loop is total on every input: each assembled pair
consumes at least one byte in either variant, and the loop's result is
independent of the fuel bound once the fuel covers the buffer length —
the fuel-translated `while` loop always runs to buffer exhaustion. -/
theorem c6_parse_total_progress :
    (∀ s : List Nat, 1 ≤ (Brackets.Pair.parse s).2)
    ∧ (∀ s : List Nat, 1 ≤ (Duplicate.Pair.parse s).len)
    ∧ (∀ (f1 f2 : Nat) (s : List Nat) (st : List (List Nat × List Brackets.Pair)),
        s.length ≤ f1 → s.length ≤ f2 → Brackets.parseGo f1 s st = Brackets.parseGo f2 s st)
    ∧ (∀ (f1 f2 : Nat) (s : List Nat) (st : List (List Nat × List Duplicate.Pair)),
        s.length ≤ f1 → s.length ≤ f2 → Duplicate.parseGo f1 s st = Duplicate.parseGo f2 s st) :=
  ⟨Brackets.Pair.parse_consumed_pos, Duplicate.Pair.parse_len_pos,
    Brackets.parseGo_fuel, Duplicate.parseGoDup_fuel⟩

/-- C6, witness at buffer `a` and fuel bounds 2 and 5. -/
theorem c6_witness :
    1 ≤ (Brackets.Pair.parse [97]).2 ∧ 1 ≤ (Duplicate.Pair.parse [97]).len
    ∧ Brackets.parseGo 2 [97] [] = Brackets.parseGo 5 [97] []
    ∧ Duplicate.parseGo 2 [97] [] = Duplicate.parseGo 5 [97] [] :=
  ⟨c6_parse_total_progress.1 [97], c6_parse_total_progress.2.1 [97],
    c6_parse_total_progress.2.2.1 2 5 [97] [] (by decide) (by decide),
    c6_parse_total_progress.2.2.2 2 5 [97] [] (by decide) (by decide)⟩

/-- C7, counterexample: the empty buffer contains none of the bytes
`&`, `=`, `[`, `%`, yet parsing it (either variant) yields a store with
zero key groups, not one. -/
theorem c7_counterexample :
    (Brackets.BracketsQS.parse []).pairs = []
    ∧ (Duplicate.DuplicateQueryString.parse []).pairs = []
    ∧ Brackets.BracketsQS.values (Brackets.BracketsQS.parse []) [] = none
    ∧ Duplicate.DuplicateQueryString.values (Duplicate.DuplicateQueryString.parse []) [] = none :=
  ⟨rfl, rfl, rfl, rfl⟩

/-- C7, amended: for every NON-EMPTY buffer containing none of the bytes
`&` (38), `=` (61), `[` (91), `%` (37), parsing (either variant) yields
exactly one key group, keyed by the whole input, holding one valueless
pair, so `values` on that key gives `[None]`. -/
theorem c7_amended : ∀ (b : Nat) (rest : List Nat),
    (∀ x ∈ b :: rest, ¬(x = 38 ∨ x = 61 ∨ x = 91 ∨ x = 37)) →
    ((Brackets.BracketsQS.parse (b :: rest)).pairs
        = [(b :: rest, [⟨⟨b :: rest, none⟩, none⟩])]
      ∧ Brackets.BracketsQS.values (Brackets.BracketsQS.parse (b :: rest)) (b :: rest)
        = some [none]
      ∧ (Duplicate.DuplicateQueryString.parse (b :: rest)).pairs
        = [(b :: rest, [⟨⟨b :: rest⟩, none⟩])]
      ∧ Duplicate.DuplicateQueryString.values (Duplicate.DuplicateQueryString.parse (b :: rest))
          (b :: rest) = some [none]) := by
  intro b rest h
  have hdec : parse_bytes (b :: rest) = b :: rest :=
    parse_bytes_of_no_escape _ (fun x hx hx37 => (h x hx) (by simp [hx37]))
  have hbk := brackets_key_parse_plain (b :: rest) h
  have hbp : Brackets.Pair.parse (b :: rest) = (⟨⟨b :: rest, none⟩, none⟩, (b :: rest).length + 1) := by
    simp [Brackets.Pair.parse, hbk, List.drop_length, Brackets.Value.parse]
  have hbstore : (Brackets.BracketsQS.parse (b :: rest)).pairs
      = [(b :: rest, [⟨⟨b :: rest, none⟩, none⟩])] := by
    show Brackets.parseGo (b :: rest).length (b :: rest) [] = _
    rw [List.length_cons]
    simp only [Brackets.parseGo, hbp]
    rw [List.drop_eq_nil_of_le (by simp)]
    rw [Brackets.parseGo_nil]
    simp [insertPair, hdec]
  have hdk := dup_keyScanLen_plain (b :: rest)
    (fun x hx hc => (h x hx) (by rcases hc with h1 | h1 <;> simp [h1]))
  have hdkey : Duplicate.Key.parse (b :: rest) = ⟨b :: rest⟩ := by
    simp [Duplicate.Key.parse, hdk]
  have hdp : Duplicate.Pair.parse (b :: rest) = ⟨⟨b :: rest⟩, none⟩ := by
    simp [Duplicate.Pair.parse, hdkey, Duplicate.Key.len, List.drop_length, Duplicate.Value.parse]
  have hdlen : (⟨⟨b :: rest⟩, none⟩ : Duplicate.Pair).len = (b :: rest).length + 1 := by
    simp [Duplicate.Pair.len, Duplicate.Key.len]
  have hdstore : (Duplicate.DuplicateQueryString.parse (b :: rest)).pairs
      = [(b :: rest, [⟨⟨b :: rest⟩, none⟩])] := by
    show Duplicate.parseGo (b :: rest).length (b :: rest) [] = _
    rw [List.length_cons]
    simp only [Duplicate.parseGo, hdp, hdlen]
    rw [List.drop_eq_nil_of_le (by simp)]
    rw [Duplicate.parseGoDup_nil]
    simp [insertPair, hdec]
  refine ⟨hbstore, ?_, hdstore, ?_⟩
  · unfold Brackets.BracketsQS.values
    rw [hbstore]
    simp [storeGet, Brackets.Key.has_subkey]
  · unfold Duplicate.DuplicateQueryString.values
    rw [hdstore]
    simp [storeGet]

/-- C7, witness for the amended theorem at buffer `abc`. -/
theorem c7_witness :
    Brackets.BracketsQS.values (Brackets.BracketsQS.parse [97, 98, 99]) [97, 98, 99] = some [none]
    ∧ Duplicate.DuplicateQueryString.values
        (Duplicate.DuplicateQueryString.parse [97, 98, 99]) [97, 98, 99] = some [none] :=
  ⟨(c7_amended 97 [98, 99] (by decide)).2.1, (c7_amended 97 [98, 99] (by decide)).2.2.2⟩

/-- C8: the duplicate variant on `foo=bar&foo=baz&foo=foobar&foo&foo=`
keeps all five entries in order, with a pair lacking `=` giving inner
`None`, an explicit empty value giving `Some` of the empty byte string,
and `value` returning the last entry, the explicit-empty one. -/
theorem c8_duplicate_values :
    Duplicate.DuplicateQueryString.values (Duplicate.DuplicateQueryString.parse inpDupMulti)
        [102, 111, 111]
      = some [some [98, 97, 114], some [98, 97, 122], some [102, 111, 111, 98, 97, 114],
              none, some []]
    ∧ Duplicate.DuplicateQueryString.value (Duplicate.DuplicateQueryString.parse inpDupMulti)
        [102, 111, 111] = some (some []) := by
  constructor <;> decide

/-- C9: a buffer of n `&` bytes parses, in either variant, to a store
whose only group is the empty key holding n valueless pairs, so `values`
on the empty key gives n `None`s; a leading or doubled `&` likewise
contributes an empty-key valueless pair, while a single trailing `&`
after a complete pair contributes nothing. -/
theorem c9_empty_segments :
    (∀ n : Nat, 1 ≤ n →
      (Brackets.BracketsQS.parse (List.replicate n 38)).pairs
          = [([], List.replicate n (⟨⟨[], none⟩, none⟩ : Brackets.Pair))]
        ∧ Brackets.BracketsQS.values (Brackets.BracketsQS.parse (List.replicate n 38)) []
          = some (List.replicate n none)
        ∧ (Duplicate.DuplicateQueryString.parse (List.replicate n 38)).pairs
          = [([], List.replicate n (⟨⟨[]⟩, none⟩ : Duplicate.Pair))]
        ∧ Duplicate.DuplicateQueryString.values
            (Duplicate.DuplicateQueryString.parse (List.replicate n 38)) []
          = some (List.replicate n none))
    ∧ (Brackets.BracketsQS.parse [97, 61, 98, 38]).pairs
      = (Brackets.BracketsQS.parse [97, 61, 98]).pairs
    ∧ (Duplicate.DuplicateQueryString.parse [97, 61, 98, 38]).pairs
      = (Duplicate.DuplicateQueryString.parse [97, 61, 98]).pairs
    ∧ Brackets.BracketsQS.values (Brackets.BracketsQS.parse [38, 97, 61, 98]) [] = some [none]
    ∧ Duplicate.DuplicateQueryString.values
        (Duplicate.DuplicateQueryString.parse [38, 97, 61, 98]) [] = some [none] := by
  refine ⟨?_, by decide, by decide, by decide, by decide⟩
  intro n hn
  obtain ⟨m, rfl⟩ : ∃ m, n = m + 1 := ⟨n - 1, by omega⟩
  have hb : (Brackets.BracketsQS.parse (List.replicate (m + 1) 38)).pairs
      = [([], List.replicate (m + 1) (⟨⟨[], none⟩, none⟩ : Brackets.Pair))] := by
    show Brackets.parseGo (List.replicate (m + 1) 38).length (List.replicate (m + 1) 38) [] = _
    rw [List.length_replicate, List.replicate_succ]
    rw [Brackets.parseGo, brackets_amp_step]
    have hins : insertPair ([] : List (List Nat × List Brackets.Pair))
        (parse_bytes (⟨[], none⟩ : Brackets.Key).key) (⟨⟨[], none⟩, none⟩ : Brackets.Pair)
        = [([], [⟨⟨[], none⟩, none⟩])] := by
      simp [insertPair, parse_bytes]
    simp only [List.drop_succ_cons, List.drop_zero, hins]
    rw [brackets_amp_go]
    simp [List.replicate_succ]
  have hd : (Duplicate.DuplicateQueryString.parse (List.replicate (m + 1) 38)).pairs
      = [([], List.replicate (m + 1) (⟨⟨[]⟩, none⟩ : Duplicate.Pair))] := by
    show Duplicate.parseGo (List.replicate (m + 1) 38).length (List.replicate (m + 1) 38) [] = _
    rw [List.length_replicate, List.replicate_succ]
    rw [Duplicate.parseGo, dup_amp_step]
    have hins : insertPair ([] : List (List Nat × List Duplicate.Pair))
        (parse_bytes (⟨[]⟩ : Duplicate.Key).slice) (⟨⟨[]⟩, none⟩ : Duplicate.Pair)
        = [([], [⟨⟨[]⟩, none⟩])] := by
      simp [insertPair, parse_bytes]
    have hlen : (⟨⟨[]⟩, none⟩ : Duplicate.Pair).len = 1 := rfl
    simp only [hlen, List.drop_succ_cons, List.drop_zero, hins]
    rw [dup_amp_go]
    simp [List.replicate_succ]
  refine ⟨hb, ?_, hd, ?_⟩
  · unfold Brackets.BracketsQS.values
    rw [hb]
    simp [storeGet, List.filter_replicate, Brackets.Key.has_subkey, List.map_replicate]
  · unfold Duplicate.DuplicateQueryString.values
    rw [hd]
    simp [storeGet, List.map_replicate]

/-- C9, witness for the run-of-`&` clause at n = 2. -/
theorem c9_witness :
    (1 : Nat) ≤ 2
    ∧ (Brackets.BracketsQS.parse (List.replicate 2 38)).pairs
      = [([], List.replicate 2 (⟨⟨[], none⟩, none⟩ : Brackets.Pair))] :=
  ⟨by decide, (c9_empty_segments.1 2 (by decide)).1⟩

/-- C10: on `foo[xyz=bar` the single pair under `foo` has the non-empty
remainder `xyz` with no closing-bracket token, so it is visible at both
levels: `values(foo)` returns its decoded value, and `sub_values(foo)`
also exposes it under the subkey `xyz`. -/
theorem c10_dual_visibility :
    Brackets.BracketsQS.values (Brackets.BracketsQS.parse inpNoClose) [102, 111, 111]
      = some [some [98, 97, 114]]
    ∧ ((Brackets.BracketsQS.sub_values (Brackets.BracketsQS.parse inpNoClose) [102, 111, 111]).map
        (fun q => q.values [120, 121, 122])) = some (some [some [98, 97, 114]]) := by
  constructor <;> decide
